import Mathlib

/-
Verification of the `iter` Go package: a generic pull-based iterator
library (`Iterator[T]` with a single method `Next() Option[T]`) plus an
optional-value type.  Each Go iterator is embedded as a state machine:
a state type, the current state, and a step function returning the
yielded optional value together with the updated state (the Go method
mutates its receiver; here the mutation is explicit state passing).
Go loops whose iteration count is not bounded by the iterator's own
state (the consuming driver loops, the drop-while skip loop, the
flatten empty-inner loop) are embedded with an explicit fuel parameter;
a `none` result of such a fuelled function means the Go loop would
still be running after that many iterations.
-/

set_option linter.unusedVariables false

universe u v

namespace iter

/-- Models the Go interface `Iterator[T]`: a state type `σ`, the current
state `st`, and `next`, which models the mutating method `Next() Option[T]`
by returning the yielded optional value and the updated state. -/
structure Iterator (α : Type u) where
  σ : Type u
  st : σ
  next : σ → Option α × σ

variable {α : Type u}

/-- The state of an iterator after one `Next` call (the mutated receiver). -/
def Iterator.adv (M : Iterator α) (s : M.σ) : M.σ :=
  (M.next s).2

/-- One step of `sliceIter.Next`: an empty slice yields None with the state
unchanged, otherwise the head element is yielded and the state advances to
the tail (`it.slice = it.slice[1:]`). -/
def sliceNext : List α → Option α × List α
  | [] => (none, [])
  | x :: xs => (some x, xs)

/-- Models `Slice`: an Iterator that yields elements from a slice. -/
def Slice (slice : List α) : Iterator α :=
  ⟨List α, slice, sliceNext⟩

/-- The consuming loop of `ForEach`, specialised to collecting the yielded
values in order, which is exactly what `ToSlice` does with its append
callback.  The Go loop pulls until the iterator yields None; `fuel` bounds
the number of pulls and the result is `none` when the loop has not reached
exhaustion within `fuel` pulls. -/
def toSliceAux {σ : Type v} (step : σ → Option α × σ) : Nat → σ → Option (List α)
  | 0, _ => none
  | fuel + 1, s =>
    match step s with
    | (none, _) => some []
    | (some x, s₂) => (toSliceAux step fuel s₂).map (fun r => x :: r)

/-- Models `ToSlice`: consumes an Iterator, creating a slice from the
yielded values. -/
def ToSlice (fuel : Nat) (it : Iterator α) : Option (List α) :=
  toSliceAux it.next fuel it.st

/-- The counting loop of `Count`: pulls until None, incrementing a counter
for every present value.  `fuel` bounds the number of pulls. -/
def countAux {σ : Type v} (step : σ → Option α × σ) : Nat → σ → Option Nat
  | 0, _ => none
  | fuel + 1, s =>
    match step s with
    | (none, _) => some 0
    | (some _, s₂) => (countAux step fuel s₂).map (fun n => n + 1)

/-- Models `Count`: consumes an Iterator and returns the number of items it
yielded. -/
def Count (fuel : Nat) (it : Iterator α) : Option Nat :=
  countAux it.next fuel it.st

/-- One step of `takeIter.Next`: when the remaining count is 0 the call
returns None at once without pulling the upstream; otherwise it pulls the
upstream and decrements the count only when the pulled value is present. -/
def takeNext (it : Iterator α) (s : it.σ × Nat) : Option α × (it.σ × Nat) :=
  if s.2 = 0 then (none, s)
  else
    match it.next s.1 with
    | (some x, s₂) => (some x, (s₂, s.2 - 1))
    | (none, s₂) => (none, (s₂, s.2))

/-- Models `Take`: an Iterator adapter that yields the n first elements from
the underlying Iterator.  The adapter state is the upstream state together
with the remaining count `take`. -/
def Take (it : Iterator α) (n : Nat) : Iterator α :=
  ⟨it.σ × Nat, (it.st, n), takeNext it⟩

/-- One step of `takeWhileIter.Next`: when `done` is set the call returns
None with the state unchanged; otherwise it pulls the upstream - a None
sets `done`; a present value failing `pred` sets `done` and None is
returned (the failing value is consumed, not re-exposed); a present value
passing `pred` is returned with `done` left false. -/
def takeWhileNext (it : Iterator α) (pred : α → Bool) (s : it.σ × Bool) :
    Option α × (it.σ × Bool) :=
  if s.2 then (none, s)
  else
    match it.next s.1 with
    | (none, s₂) => (none, (s₂, true))
    | (some x, s₂) => if pred x then (some x, (s₂, false)) else (none, (s₂, true))

/-- Models `TakeWhile`: an Iterator adapter that yields values from the
underlying Iterator as long as the predicate returns true. -/
def TakeWhile (it : Iterator α) (pred : α → Bool) : Iterator α :=
  ⟨it.σ × Bool, (it.st, false), takeWhileNext it pred⟩

/-- The body of `dropIter.Next` as a recursion on the remaining count: while
the count is positive, pull and discard upstream values, decrementing once
per present value; if the upstream yields None mid-skip, set the count to 0
and return None immediately; once the count is 0 pass one upstream pull
through unchanged. -/
def dropGo (it : Iterator α) : Nat → it.σ → Option α × (it.σ × Nat)
  | 0, s => ((it.next s).1, ((it.next s).2, 0))
  | d + 1, s =>
    match it.next s with
    | (none, s₂) => (none, (s₂, 0))
    | (some _, s₂) => dropGo it d s₂

/-- Models `Drop`: an Iterator adapter that drops the first n items from the
underlying Iterator before yielding any values.  The adapter state is the
upstream state together with the remaining count `drop`. -/
def Drop (it : Iterator α) (n : Nat) : Iterator α :=
  ⟨it.σ × Nat, (it.st, n), fun s => dropGo it s.2 s.1⟩

/-- The skip loop of `dropWhileIter.Next` (the not-yet-done branch): pull
the upstream repeatedly, discarding values while `pred` holds; upstream
exhaustion sets `done` and returns None; the first value failing `pred`
sets `done` and is returned.  `fuel` bounds the loop; `none` means the Go
loop would still be running. -/
def dropWhileLoop (it : Iterator α) (pred : α → Bool) :
    Nat → it.σ → Option (Option α × (it.σ × Bool))
  | 0, _ => none
  | fuel + 1, s =>
    match it.next s with
    | (none, s₂) => some (none, (s₂, true))
    | (some x, s₂) =>
      if pred x then dropWhileLoop it pred fuel s₂ else some (some x, (s₂, true))

/-- One call of `dropWhileIter.Next`: when `done` is already set the call
passes a single upstream pull through unchanged (keeping `done` set);
otherwise it runs the skip loop. -/
def dropWhileNext (it : Iterator α) (pred : α → Bool) (fuel : Nat)
    (s : it.σ × Bool) : Option (Option α × (it.σ × Bool)) :=
  if s.2 then some ((it.next s.1).1, ((it.next s.1).2, true))
  else dropWhileLoop it pred fuel s.1

/-- Models the state built by `DropWhile`: the upstream's initial state with
the `done` flag clear. -/
def DropWhile (it : Iterator α) (pred : α → Bool) : it.σ × Bool :=
  (it.st, false)

/-- Models `Repeat`: an Iterator that repeatedly returns the same value.
Its state is the stored value, which `Next` yields without change. -/
def Repeat (value : α) : Iterator α :=
  ⟨α, value, fun s => (some s, s)⟩

/-- Models `Empty`: an Iterator that always yields None. -/
def Empty : Iterator α :=
  ⟨PUnit, PUnit.unit, fun s => (none, s)⟩

/-- One step of `fuseIter.Next`: when `done` is set the call returns None
with the state unchanged (the wrapped iterator is never pulled again);
otherwise it pulls the upstream, setting `done` exactly when the pull
yields None, and returns the pulled value. -/
def fuseNext (it : Iterator α) (s : it.σ × Bool) : Option α × (it.σ × Bool) :=
  if s.2 then (none, s)
  else
    match it.next s.1 with
    | (none, s₂) => (none, (s₂, true))
    | (some x, s₂) => (some x, (s₂, false))

/-- Models `Fuse`: an Iterator adapter that keeps yielding None after the
underlying Iterator has first yielded None. -/
def Fuse (it : Iterator α) : Iterator α :=
  ⟨it.σ × Bool, (it.st, false), fuseNext it⟩

/-- One step of `chainIter.Next`.  `Chain` stores `Fuse(first)`, so the
first component of the state is a fused state and the pull goes through
`fuseNext`: a present value from the fused first iterator is returned,
otherwise one pull of `second` is returned. -/
def chainNext (first second : Iterator α) (s : (first.σ × Bool) × second.σ) :
    Option α × ((first.σ × Bool) × second.σ) :=
  match fuseNext first s.1 with
  | (some x, fs) => (some x, (fs, s.2))
  | (none, fs) => ((second.next s.2).1, (fs, (second.next s.2).2))

/-- Models `Chain`: an Iterator that concatenates two iterators, wrapping
`first` in `Fuse` (the initial first-component state `(first.st, false)` is
`(Fuse first).st`, and `chainNext` pulls it through `fuseNext`). -/
def Chain (first second : Iterator α) : Iterator α :=
  ⟨(first.σ × Bool) × second.σ, ((first.st, false), second.st), chainNext first second⟩

/-- Models the fields of `flattenIter`: the outer iterator of iterators, the
current inner iterator, and the `done` flag. -/
structure flattenIter (α : Type u) where
  inner : Iterator (Iterator α)
  current : Iterator α
  done : Bool

/-- Models `Flatten`: an Iterator adapter that flattens nested iterators.
The current inner iterator starts out as `Empty`. -/
def Flatten (it : Iterator (Iterator α)) : flattenIter α :=
  ⟨it, Empty, false⟩

/-- One call of `flattenIter.Next`: loop - when `done`, return None; pull
the current inner iterator and return a present value; on an absent inner
value pull the outer iterator - an absent outer sets `done` and returns
None, a present outer installs the new inner iterator and retries.  `fuel`
bounds the retry loop over consecutive exhausted inner iterators; `none`
means the Go loop would still be running. -/
def flattenNext : Nat → flattenIter α → Option (Option α × flattenIter α)
  | 0, _ => none
  | fuel + 1, st =>
    if st.done then some (none, st)
    else
      match st.current.next st.current.st with
      | (some x, cs) =>
        some (some x, ⟨st.inner, ⟨st.current.σ, cs, st.current.next⟩, false⟩)
      | (none, cs) =>
        match st.inner.next st.inner.st with
        | (none, os) =>
          some (none, ⟨⟨st.inner.σ, os, st.inner.next⟩,
                       ⟨st.current.σ, cs, st.current.next⟩, true⟩)
        | (some newInner, os) =>
          flattenNext fuel ⟨⟨st.inner.σ, os, st.inner.next⟩, newInner, false⟩

/-- The `ToSlice` driver specialised to a flattened iterator: `fuel` bounds
the inner retry loop of each `Next` call and `calls` bounds the number of
`Next` calls. -/
def collectFlatten (fuel : Nat) : Nat → flattenIter α → Option (List α)
  | 0, _ => none
  | calls + 1, st =>
    match flattenNext fuel st with
    | none => none
    | some (none, _) => some []
    | some (some x, st₂) => (collectFlatten fuel calls st₂).map (fun r => x :: r)

/-- The number of present optionals an iterator yields over its next `k`
`Next` calls, starting from state `s`. -/
def yields (M : Iterator α) : M.σ → Nat → Nat
  | _, 0 => 0
  | s, k + 1 =>
    (if (M.next s).1.isSome then 1 else 0) + yields M (M.next s).2 k

/-- A non-monotonic source, as could be built with the Go `Func`
constructor from a stateful closure: the first call yields None, every
later call yields a present value. -/
@[reducible] def resuming : Iterator Nat :=
  ⟨Nat, 0, fun n => if n = 0 then (none, 1) else (some 7, n + 1)⟩

/-- Models the Go `SomeOrNone[T]` interface of option.go together with its
two implementations `Some[T]` (holding one value) and `None[T]`. -/
inductive SomeOrNone (α : Type u) where
  | Some (val : α)
  | None

/-- Models `Unwrappable`: true on `Some`, false on `None`. -/
def SomeOrNone.Unwrappable : SomeOrNone α → Bool
  | .Some _ => true
  | .None => false

/-- Models `ErrUnwrapNone = errors.New("unwrapped an empty Option")`. -/
def ErrUnwrapNone : String :=
  "unwrapped an empty `Option`"

/-- Models the Go struct `option[T]` wrapping a `SomeOrNone[T]`. -/
structure option (α : Type u) where
  inner : SomeOrNone α

/-- Models `NewSome`. -/
def NewSome (v : α) : option α :=
  ⟨SomeOrNone.Some v⟩

/-- Models `NewNone`. -/
def NewNone (α : Type u) : option α :=
  ⟨SomeOrNone.None⟩

/-- Models `option.Unwrap`: when the inner value is unwrappable its value is
returned; otherwise the method panics with `ErrUnwrapNone`.  The panic is
modelled as the `Except.error` result, so an absent option never produces a
value of type `α`. -/
def option.Unwrap (o : option α) : Except String α :=
  if o.inner.Unwrappable then
    match o.inner with
    | .Some v => Except.ok v
    | .None => Except.error ErrUnwrapNone
  else Except.error ErrUnwrapNone

/-- A state that `next` maps to None with itself is never left again. -/
theorem adv_iterate_none (M : Iterator α) (s : M.σ) (h : M.next s = (none, s)) :
    ∀ k : Nat, (M.next ((M.adv)^[k] s)).1 = none := by
  intro k
  have hfix : M.adv s = s := by simp [Iterator.adv, h]
  rw [Function.iterate_fixed hfix, h]

/-- A fused iterator in a done state yields None and does not move. -/
theorem fuse_done_step (it : Iterator α) (s : it.σ × Bool) (h : s.2 = true) :
    fuseNext it s = (none, s) := by
  simp [fuseNext, h]

/-- When a fuse step yields None, the resulting state is done. -/
theorem fuse_none_done (it : Iterator α) (s : it.σ × Bool)
    (h : (fuseNext it s).1 = none) : ((fuseNext it s).2).2 = true := by
  by_cases hd : s.2
  · simp [fuseNext, hd]
  · rcases hnext : it.next s.1 with ⟨_ | x, s₂⟩ <;>
      simp [fuseNext, hd, hnext] at h ⊢

/-- Iterating `adv` from a done fuse state stays at that state. -/
theorem fuse_iterate_done (it : Iterator α) (s : it.σ × Bool) (h : s.2 = true) :
    ∀ k : Nat, ((Fuse it).adv)^[k] s = s := by
  intro k
  have hfix : (Fuse it).adv s = s := by
    simp [Iterator.adv, Fuse, fuse_done_step it s h]
  exact Function.iterate_fixed hfix k

/-- A take-while iterator in a done state yields None and does not move. -/
theorem takeWhile_done_step (it : Iterator α) (pred : α → Bool)
    (s : it.σ × Bool) (h : s.2 = true) :
    takeWhileNext it pred s = (none, s) := by
  simp [takeWhileNext, h]

/-- When a take-while step yields None, the resulting state is done. -/
theorem takeWhile_none_done (it : Iterator α) (pred : α → Bool)
    (s : it.σ × Bool) (h : (takeWhileNext it pred s).1 = none) :
    ((takeWhileNext it pred s).2).2 = true := by
  by_cases hd : s.2
  · simp [takeWhileNext, hd]
  · rcases hnext : it.next s.1 with ⟨_ | x, s₂⟩
    · simp [takeWhileNext, hd, hnext]
    · by_cases hp : pred x <;> simp [takeWhileNext, hd, hnext, hp] at h ⊢

/-- Iterating `adv` from a done take-while state stays at that state. -/
theorem takeWhile_iterate_done (it : Iterator α) (pred : α → Bool)
    (s : it.σ × Bool) (h : s.2 = true) :
    ∀ k : Nat, ((TakeWhile it pred).adv)^[k] s = s := by
  intro k
  have hfix : (TakeWhile it pred).adv s = s := by
    simp [Iterator.adv, TakeWhile, takeWhile_done_step it pred s h]
  exact Function.iterate_fixed hfix k

/-- Claim C2: for every upstream iterator, once `Fuse(it).Next()` has
returned an absent optional, every subsequent `Next` call on the fused
iterator also returns an absent optional, and the fused state (holding the
wrapped iterator's state) never changes again, so the wrapped iterator
cannot resume even if it would otherwise produce a present value again. -/
theorem fuse_sticky :
    ∀ (α : Type u) (it : Iterator α) (s : it.σ × Bool),
      ((Fuse it).next s).1 = none →
      ∀ k : Nat,
        ((Fuse it).next (((Fuse it).adv)^[k] (((Fuse it).next s).2))).1 = none ∧
        ((Fuse it).adv)^[k] (((Fuse it).next s).2) = ((Fuse it).next s).2 := by
  intro α it s h k
  have hd : (((Fuse it).next s).2).2 = true := fuse_none_done it s h
  have hfix : ((Fuse it).adv)^[k] (((Fuse it).next s).2) = ((Fuse it).next s).2 :=
    fuse_iterate_done it _ hd k
  refine ⟨?_, hfix⟩
  show (fuseNext it (((Fuse it).adv)^[k] (((Fuse it).next s).2))).1 = none
  rw [hfix]
  rw [fuse_done_step it _ hd]

/-- Witness for claim C2 at the empty slice source, three calls later. -/
theorem fuse_sticky_witness :
    ((Fuse (Slice ([] : List Nat))).next (([], false))).1 = none ∧
    ((Fuse (Slice ([] : List Nat))).next
      (((Fuse (Slice ([] : List Nat))).adv)^[3]
        (((Fuse (Slice ([] : List Nat))).next (([], false))).2))).1 = none :=
  ⟨rfl, (fuse_sticky Nat (Slice []) ([], false) rfl 3).1⟩

/-- Claim C1 counterexample: DropWhile over a non-monotonic upstream
returns an absent optional from its first `Next` call (setting the done
flag) and then a present value `7` from the very next call, so a done-flag
adapter is not always permanently exhausted. -/
theorem dropWhile_resumes_after_none :
    dropWhileNext resuming (fun _ => true) 1
        (DropWhile resuming (fun _ => true)) = some (none, (1, true))
    ∧ dropWhileNext resuming (fun _ => true) 1 ((1, true)) = some (some 7, (2, true))
    ∧ (some (some 7) : Option (Option Nat)) ≠ some none :=
  ⟨rfl, rfl, by simp⟩

/-- Claim C1 (amended): once TakeWhile or Fuse has returned an absent
optional from `Next`, every subsequent call also returns an absent optional
(the adapter is permanently exhausted), even when the upstream is
non-monotonic; DropWhile, however, once its done flag is set, passes a
single upstream pull through unchanged on every call, so it is not
permanently exhausted. -/
theorem done_flag_adapters_exhaustion :
    (∀ (α : Type u) (it : Iterator α) (pred : α → Bool) (s : it.σ × Bool),
       (takeWhileNext it pred s).1 = none →
       ∀ k : Nat,
         (takeWhileNext it pred
           (((TakeWhile it pred).adv)^[k] ((takeWhileNext it pred s).2))).1 = none)
  ∧ (∀ (α : Type u) (it : Iterator α) (s : it.σ × Bool),
       (fuseNext it s).1 = none →
       ∀ k : Nat,
         (fuseNext it (((Fuse it).adv)^[k] ((fuseNext it s).2))).1 = none)
  ∧ (∀ (α : Type u) (it : Iterator α) (pred : α → Bool) (fuel : Nat) (s : it.σ),
       dropWhileNext it pred fuel ((s, true)) =
         some ((it.next s).1, ((it.next s).2, true))) := by
  refine ⟨?_, ?_, ?_⟩
  · intro α it pred s h k
    have hd : ((takeWhileNext it pred s).2).2 = true := takeWhile_none_done it pred s h
    rw [takeWhile_iterate_done it pred _ hd k, takeWhile_done_step it pred _ hd]
  · intro α it s h k
    have hd : ((fuseNext it s).2).2 = true := fuse_none_done it s h
    rw [fuse_iterate_done it _ hd k, fuse_done_step it _ hd]
  · intro α it pred fuel s
    simp [dropWhileNext]

/-- Witness for the amended claim C1: TakeWhile over the empty slice
returns None at once, and two calls later still returns None. -/
theorem done_flag_adapters_exhaustion_witness :
    (takeWhileNext (Slice ([] : List Nat)) (fun _ => true) (([], false))).1 = none ∧
    (takeWhileNext (Slice ([] : List Nat)) (fun _ => true)
      (((TakeWhile (Slice ([] : List Nat)) (fun _ => true)).adv)^[2]
        ((takeWhileNext (Slice ([] : List Nat)) (fun _ => true) (([], false))).2))).1
      = none :=
  ⟨rfl, done_flag_adapters_exhaustion.1 Nat (Slice []) (fun _ => true) ([], false) rfl 2⟩

/-- Collecting a slice iterator returns the backing list, given enough
driver fuel. -/
theorem slice_toSliceAux (l : List α) :
    ∀ fuel : Nat, l.length + 1 ≤ fuel → toSliceAux sliceNext fuel l = some l := by
  induction l with
  | nil =>
    intro fuel h
    cases fuel with
    | zero => simp at h
    | succ f => simp [toSliceAux, sliceNext]
  | cons x xs ih =>
    intro fuel h
    cases fuel with
    | zero => simp at h
    | succ f =>
      have hf : xs.length + 1 ≤ f := by simp at h; omega
      simp [toSliceAux, sliceNext, ih f hf]

/-- With the remaining count at 0, a drop adapter collects exactly what the
upstream collects. -/
theorem drop_zero_toSliceAux (it : Iterator α) :
    ∀ (fuel : Nat) (s : it.σ),
      toSliceAux (fun p => dropGo it p.2 p.1) fuel ((s, 0)) =
        toSliceAux it.next fuel s := by
  intro fuel
  induction fuel with
  | zero => intro s; rfl
  | succ f ih =>
    intro s
    rcases hnext : it.next s with ⟨v, s₂⟩
    cases v <;> simp [toSliceAux, dropGo, hnext, ih]

/-- Claim C3: `Drop` at count 0 passes one upstream pull through with the
count staying 0; an absent upstream mid-skip resets the count to 0 and
returns None at once; a present upstream value mid-skip is discarded and
decrements the count; `Drop n = 0` collects as the identity; and the
concrete examples `Drop(Slice [1..5], 3) = [4,5]` and
`Drop(Slice [1..5], 5) = []` hold. -/
theorem drop_semantics :
    (∀ (α : Type u) (it : Iterator α) (s : it.σ),
       dropGo it 0 s = ((it.next s).1, ((it.next s).2, 0)))
  ∧ (∀ (α : Type u) (it : Iterator α) (d : Nat) (s s₂ : it.σ),
       it.next s = (none, s₂) → dropGo it (d + 1) s = (none, (s₂, 0)))
  ∧ (∀ (α : Type u) (it : Iterator α) (d : Nat) (s s₂ : it.σ) (x : α),
       it.next s = (some x, s₂) → dropGo it (d + 1) s = dropGo it d s₂)
  ∧ (∀ (α : Type u) (it : Iterator α) (fuel : Nat),
       ToSlice fuel (Drop it 0) = ToSlice fuel it)
  ∧ ToSlice 6 (Drop (Slice [1, 2, 3, 4, 5]) 3) = some [4, 5]
  ∧ ToSlice 6 (Drop (Slice [1, 2, 3, 4, 5]) 5) = some [] := by
  refine ⟨?_, ?_, ?_, ?_, rfl, rfl⟩
  · intro α it s
    rfl
  · intro α it d s s₂ h
    simp [dropGo, h]
  · intro α it d s s₂ x h
    simp [dropGo, h]
  · intro α it fuel
    exact drop_zero_toSliceAux it fuel it.st

/-- Witness for claim C3: a present pull mid-skip is discarded while the
count decrements. -/
theorem drop_semantics_witness :
    (Slice ([9, 8] : List Nat)).next ([9, 8]) = (some 9, [8]) ∧
    dropGo (Slice ([9, 8] : List Nat)) 1 ([9, 8]) =
      dropGo (Slice ([9, 8] : List Nat)) 0 ([8]) :=
  ⟨rfl, drop_semantics.2.2.1 Nat (Slice [9, 8]) 0 [9, 8] [8] 9 rfl⟩

/-- Claim C4: TakeWhile pulls the upstream when not done - a present value
failing the predicate is consumed (the upstream state advances past it),
the done flag is set and None is returned; a present value passing the
predicate is returned with done left false; an absent upstream sets done
and returns None; a done TakeWhile returns None without moving; and
collecting `TakeWhile(Slice [1..5], fun x => x < 4)` gives `[1,2,3]`. -/
theorem takeWhile_semantics :
    (∀ (α : Type u) (it : Iterator α) (pred : α → Bool) (s s₂ : it.σ) (x : α),
       it.next s = (some x, s₂) → pred x = false →
       takeWhileNext it pred ((s, false)) = (none, (s₂, true)))
  ∧ (∀ (α : Type u) (it : Iterator α) (pred : α → Bool) (s s₂ : it.σ) (x : α),
       it.next s = (some x, s₂) → pred x = true →
       takeWhileNext it pred ((s, false)) = (some x, (s₂, false)))
  ∧ (∀ (α : Type u) (it : Iterator α) (pred : α → Bool) (s s₂ : it.σ),
       it.next s = (none, s₂) →
       takeWhileNext it pred ((s, false)) = (none, (s₂, true)))
  ∧ (∀ (α : Type u) (it : Iterator α) (pred : α → Bool) (s : it.σ × Bool),
       s.2 = true → takeWhileNext it pred s = (none, s))
  ∧ ToSlice 6 (TakeWhile (Slice [1, 2, 3, 4, 5]) (fun x => decide (x < 4)))
      = some [1, 2, 3] := by
  refine ⟨?_, ?_, ?_, ?_, rfl⟩
  · intro α it pred s s₂ x h hp
    simp [takeWhileNext, h, hp]
  · intro α it pred s s₂ x h hp
    simp [takeWhileNext, h, hp]
  · intro α it pred s s₂ h
    simp [takeWhileNext, h]
  · intro α it pred s h
    exact takeWhile_done_step it pred s h

/-- Witness for claim C4: the failing value 4 is consumed and None is
returned with the done flag set. -/
theorem takeWhile_semantics_witness :
    (Slice ([4, 9] : List Nat)).next ([4, 9]) = (some 4, [9]) ∧
    decide ((4 : Nat) < 4) = false ∧
    takeWhileNext (Slice ([4, 9] : List Nat)) (fun x => decide (x < 4))
      (([4, 9], false)) = (none, ([9], true)) :=
  ⟨rfl, rfl,
    takeWhile_semantics.1 Nat (Slice [4, 9]) (fun x => decide (x < 4))
      [4, 9] [9] 4 rfl rfl⟩

/-- Claim C7: for every finite ordered sequence, collecting the iterator
built from it returns the sequence itself (round-trip), including the empty
sequence. -/
theorem collect_slice_roundtrip :
    ∀ (α : Type u) (l : List α) (fuel : Nat), l.length + 1 ≤ fuel →
      ToSlice fuel (Slice l) = some l := by
  intro α l fuel h
  exact slice_toSliceAux l fuel h

/-- Witness for claim C7 at the list `[1,2,3]`. -/
theorem collect_slice_roundtrip_witness :
    ([1, 2, 3] : List Nat).length + 1 ≤ 4 ∧
    ToSlice 4 (Slice ([1, 2, 3] : List Nat)) = some [1, 2, 3] :=
  ⟨by simp, collect_slice_roundtrip Nat [1, 2, 3] 4 (by simp)⟩

/-- The step function of a slice iterator is `sliceNext`. -/
theorem Slice_next (l : List α) : (Slice l).next = sliceNext :=
  rfl

/-- The step function of a repeat iterator yields its state unchanged. -/
theorem Repeat_next (v : α) : (Repeat v).next = fun s => (some s, s) :=
  rfl

/-- Once the fused first component of a chain over slices is done, the
chain collects exactly the remaining second slice. -/
theorem chain_slice_second (p q : List α) (f₀ : List α) :
    ∀ (b : List α) (fuel : Nat), b.length + 1 ≤ fuel →
      toSliceAux (chainNext (Slice p) (Slice q)) fuel (((f₀, true), b)) = some b := by
  intro b
  induction b with
  | nil =>
    intro fuel h
    cases fuel with
    | zero => simp at h
    | succ f => simp [toSliceAux, chainNext, fuseNext, Slice_next, sliceNext]
  | cons x bs ih =>
    intro fuel h
    cases fuel with
    | zero => simp at h
    | succ f =>
      have hf : bs.length + 1 ≤ f := by simp at h; omega
      simp [toSliceAux, chainNext, fuseNext, Slice_next, sliceNext, ih f hf]

/-- A chain of two slice iterators collects to the concatenation of the two
backing lists. -/
theorem chain_slice_concat (p q : List α) :
    ∀ (a b : List α) (fuel : Nat), a.length + b.length + 1 ≤ fuel →
      toSliceAux (chainNext (Slice p) (Slice q)) fuel (((a, false), b))
        = some (a ++ b) := by
  intro a
  induction a with
  | nil =>
    intro b fuel h
    cases fuel with
    | zero => simp at h
    | succ f =>
      cases b with
      | nil => simp [toSliceAux, chainNext, fuseNext, Slice_next, sliceNext]
      | cons x bs =>
        have hb : bs.length + 1 ≤ f := by simp at h; omega
        simp [toSliceAux, chainNext, fuseNext, Slice_next, sliceNext,
          chain_slice_second p q [] bs f hb]
  | cons y as ih =>
    intro b fuel h
    cases fuel with
    | zero => simp at h
    | succ f =>
      have ha : as.length + b.length + 1 ≤ f := by simp at h; omega
      simp [toSliceAux, chainNext, fuseNext, Slice_next, sliceNext, ih b f ha]

/-- Claim C5: Chain pulls the first iterator through Fuse - a present fused
value is returned unchanged; once the fused state is done, every call
passes one pull of the second iterator through unmodified while the fused
state (and so the first iterator) stays frozen; after the fused first pull
yields None the stored fused state is done, so the first iterator cannot
resume; chains of slice iterators collect to the order-preserving
concatenation; and collecting `Chain(Slice [1,2], Slice [3,4])` gives
`[1,2,3,4]`. -/
theorem chain_semantics :
    (∀ (α : Type u) (first second : Iterator α) (fs : first.σ × Bool)
       (ss : second.σ) (x : α) (fs₂ : first.σ × Bool),
       fuseNext first fs = (some x, fs₂) →
       chainNext first second ((fs, ss)) = (some x, (fs₂, ss)))
  ∧ (∀ (α : Type u) (first second : Iterator α) (fs : first.σ × Bool)
       (ss : second.σ),
       fs.2 = true →
       chainNext first second ((fs, ss)) =
         ((second.next ss).1, (fs, (second.next ss).2)))
  ∧ (∀ (α : Type u) (first second : Iterator α) (fs : first.σ × Bool)
       (ss : second.σ),
       (fuseNext first fs).1 = none →
       (((chainNext first second ((fs, ss))).2).1).2 = true)
  ∧ (∀ (α : Type u) (l₁ l₂ : List α) (fuel : Nat),
       l₁.length + l₂.length + 1 ≤ fuel →
       ToSlice fuel (Chain (Slice l₁) (Slice l₂)) = some (l₁ ++ l₂))
  ∧ ToSlice 5 (Chain (Slice [1, 2]) (Slice [3, 4])) = some [1, 2, 3, 4] := by
  refine ⟨?_, ?_, ?_, ?_, rfl⟩
  · intro α first second fs ss x fs₂ h
    simp [chainNext, h]
  · intro α first second fs ss h
    simp [chainNext, fuse_done_step first fs h]
  · intro α first second fs ss h
    rcases hf : fuseNext first fs with ⟨_ | x, fs₂⟩
    · have hd : ((fuseNext first fs).2).2 = true := fuse_none_done first fs h
      rw [hf] at hd
      simp at hd
      simp [chainNext, hf, hd]
    · rw [hf] at h
      simp at h
  · intro α l₁ l₂ fuel h
    exact chain_slice_concat l₁ l₂ l₁ l₂ fuel h

/-- Witness for claim C5: with the fused first component done, the chain
passes the second slice iterator through unchanged. -/
theorem chain_semantics_witness :
    (([] : List Nat), true).2 = true ∧
    chainNext (Slice ([] : List Nat)) (Slice ([3, 4] : List Nat))
        ((([], true), [3, 4])) =
      ((some 3 : Option Nat), (([], true), [4])) :=
  ⟨rfl, chain_semantics.2.1 Nat (Slice []) (Slice [3, 4]) ([], true) [3, 4] rfl⟩

/-- Counting a take of a repeat source gives exactly the take count, given
enough driver fuel. -/
theorem count_take_repeat_aux (v : α) :
    ∀ (n fuel : Nat), n + 1 ≤ fuel →
      countAux (takeNext (Repeat v)) fuel ((v, n)) = some n := by
  intro n
  induction n with
  | zero =>
    intro fuel h
    cases fuel with
    | zero => omega
    | succ f => simp [countAux, takeNext]
  | succ m ih =>
    intro fuel h
    cases fuel with
    | zero => omega
    | succ f =>
      have hf : m + 1 ≤ f := by omega
      simp [countAux, takeNext, Repeat_next, ih f hf]

/-- Claim C8: `Count(Take(Repeat v, n)) = n` for every value and every
n >= 0 (with enough driver fuel), and `Take(it, 0)` yields None at once
from its initial state, the upstream state untouched. -/
theorem count_take_repeat :
    (∀ (α : Type u) (v : α) (n fuel : Nat), n + 1 ≤ fuel →
       Count fuel (Take (Repeat v) n) = some n)
  ∧ (∀ (α : Type u) (it : Iterator α),
       (Take it 0).next ((Take it 0).st) = (none, (it.st, 0))) := by
  constructor
  · intro α v n fuel h
    exact count_take_repeat_aux v n fuel h
  · intro α it
    rfl

/-- Witness for claim C8 at value 5, n = 2, fuel 3. -/
theorem count_take_repeat_witness :
    2 + 1 ≤ 3 ∧ Count 3 (Take (Repeat (5 : Nat)) 2) = some 2 :=
  ⟨by simp, count_take_repeat.1 Nat 5 2 3 (by simp)⟩

/-- Claim C9: `Unwrap` on a present option returns the held value, and on
an absent option fails with the unrecoverable error `ErrUnwrapNone`
(modelled as `Except.error`), never substituting a default value. -/
theorem unwrap_semantics :
    (∀ (α : Type u) (v : α), (NewSome v).Unwrap = Except.ok v)
  ∧ (∀ (α : Type u), (NewNone α).Unwrap = Except.error ErrUnwrapNone) :=
  ⟨fun _ _ => rfl, fun _ => rfl⟩

/-- The remaining count of a take adapter bounds the number of present
optionals over any number of future calls. -/
theorem take_yields_le_aux (it : Iterator α) (n : Nat) :
    ∀ (k : Nat) (s : it.σ) (t : Nat), yields (Take it n) ((s, t)) k ≤ t := by
  intro k
  induction k with
  | zero =>
    intro s t
    simp [yields]
  | succ j ih =>
    intro s t
    cases t with
    | zero =>
      have h0 : (Take it n).next ((s, 0)) = (none, (s, 0)) := rfl
      simpa [yields, h0] using ih s 0
    | succ m =>
      rcases hn : it.next s with ⟨v, s₂⟩
      cases v with
      | none =>
        have hstep : (Take it n).next ((s, m + 1)) = (none, (s₂, m + 1)) := by
          simp [Take, takeNext, hn]
        simpa [yields, hstep] using ih s₂ (m + 1)
      | some x =>
        have hstep : (Take it n).next ((s, m + 1)) = (some x, (s₂, m)) := by
          simp [Take, takeNext, hn]
        have hy := ih s₂ m
        simp [yields, hstep]
        omega

/-- Claim C10: for every upstream iterator and every n, `Take(it, n)`
yields at most n present optionals in total across any number of `Next`
calls. -/
theorem take_yields_at_most :
    ∀ (α : Type u) (it : Iterator α) (n k : Nat),
      yields (Take it n) ((Take it n).st) k ≤ n := by
  intro α it n k
  exact take_yields_le_aux it n k it.st n

/-- Whenever a flatten call returns an absent optional, the resulting state
carries the done flag: the only sources of None are an already-done state
(whose flag stays set) and outer exhaustion (which sets the flag). -/
theorem flatten_none_done :
    ∀ (fuel : Nat) (st st₂ : flattenIter α),
      flattenNext fuel st = some (none, st₂) → st₂.done = true := by
  intro fuel
  induction fuel with
  | zero =>
    intro st st₂ h
    simp [flattenNext] at h
  | succ f ih =>
    intro st st₂ h
    by_cases hd : st.done
    · simp [flattenNext, hd] at h
      rw [← h]
      exact hd
    · rcases hc : st.current.next st.current.st with ⟨_ | x, cs⟩
      · rcases ho : st.inner.next st.inner.st with ⟨_ | inner2, os⟩
        · simp [flattenNext, hd, hc, ho] at h
          rw [← h]
        · simp [flattenNext, hd, hc, ho] at h
          exact ih _ _ h
      · simp [flattenNext, hd, hc] at h

/-- A single flatten call skips past any number of consecutive empty inner
iterators and returns the first value of the next non-empty inner one. -/
theorem flatten_skip_empties :
    ∀ (k : Nat) (J : Iterator α) (x : α) (js : J.σ),
      J.next J.st = (some x, js) →
      (flattenNext (k + 2) (Flatten (Slice (List.replicate k Empty ++ [J])))).map
        Prod.fst = some (some x) := by
  intro k
  induction k with
  | zero =>
    intro J x js h
    simp [Flatten, Slice, Empty, sliceNext, flattenNext, h]
  | succ n ih =>
    intro J x js h
    have hih := ih J x js h
    simp only [Flatten, Slice, List.replicate_succ, List.cons_append] at hih ⊢
    rw [show n + 1 + 2 = (n + 2) + 1 from rfl]
    simp only [flattenNext]
    simpa [Empty, sliceNext] using hih

/-- Claim C6: a flatten call returns an absent optional only with the done
flag set (no spurious absents while inner iterators are merely empty); once
done, every call returns absent with the state unchanged; a single call
skips arbitrarily many consecutive empty inner iterators to reach the next
value; and collecting `Flatten(Slice [Slice [1,2], Slice [3,4]])` gives
`[1,2,3,4]`. -/
theorem flatten_semantics :
    (∀ (α : Type u) (fuel : Nat) (st st₂ : flattenIter α),
       flattenNext fuel st = some (none, st₂) → st₂.done = true)
  ∧ (∀ (α : Type u) (fuel : Nat) (st : flattenIter α),
       st.done = true → flattenNext (fuel + 1) st = some (none, st))
  ∧ (∀ (α : Type u) (k : Nat) (J : Iterator α) (x : α) (js : J.σ),
       J.next J.st = (some x, js) →
       (flattenNext (k + 2) (Flatten (Slice (List.replicate k Empty ++ [J])))).map
         Prod.fst = some (some x))
  ∧ collectFlatten 3 5 (Flatten (Slice [Slice [1, 2], Slice [3, 4]]))
      = some [1, 2, 3, 4] := by
  refine ⟨?_, ?_, ?_, rfl⟩
  · intro α fuel st st₂ h
    exact flatten_none_done fuel st st₂ h
  · intro α fuel st h
    simp [flattenNext, h]
  · intro α k J x js h
    exact flatten_skip_empties k J x js h

/-- Witness for claim C6: one flatten call skips one empty inner iterator
and yields the value 7 of the following inner iterator. -/
theorem flatten_semantics_witness :
    (Slice ([7] : List Nat)).next ((Slice ([7] : List Nat)).st) = (some 7, []) ∧
    (flattenNext (1 + 2)
        (Flatten (Slice (List.replicate 1 Empty ++ [Slice ([7] : List Nat)])))).map
      Prod.fst = some (some 7) :=
  ⟨rfl, flatten_semantics.2.2.1 Nat 1 (Slice [7]) 7 [] rfl⟩

end iter
